import Mathlib

/-!
The gobox package `boxtools`: compaction and application of file actions.

A shallow embedding of `src/boxtools/boxtools.go`:

* `RemoveRedundancyFromFileActions` (the compactor): a tally pass that fills a
  Go `map[string]int`, then a cancellation pass over the same slice;
* `ComputeFilesFromFileActions` (the materializer);
* `ApplyFileActionsToFilesTable` (the applier), over a storage handle;
* `ConvertJsonStringToFileActionsStruct` and `ConvertFileActionStructToJsonString`,
  over the two calls they make to `encoding/json`.

Go strings are modelled by `String`, Go `int` by `Int` (the tallies are bounded
by the length of the slice, so no wrap-around can occur), a Go
`map[string]int` by a function `String → Option Int` (`none`: key absent), and
a Go slice by a `List`.
-/

namespace model

/-- Modelled from the spec: the `model.File` record (its declaration lives in the
`model` package): identifier, owning-user reference, name, content hash,
size in bytes, last-modified timestamp, path and creation timestamp. The field
names are those of the JSON sample quoted in `boxtools.go`. -/
structure File where
  Id : Int
  UserId : Int
  Name : String
  Hash : String
  Size : Int
  Modified : String
  Path : String
  CreatedAt : String
deriving DecidableEq, Repr, Inhabited

/-- Modelled from the spec: the `model.FileAction` record: identifier, owning
client reference, the `IsCreate` flag (true: creation, false: deletion),
creation timestamp and the embedded `File` snapshot. -/
structure FileAction where
  Id : Int
  ClientId : Int
  IsCreate : Bool
  CreatedAt : String
  File : model.File
deriving DecidableEq, Repr, Inhabited

/-- Modelled from the spec: the `model.User` record, with the fields that
`boxtools.go` reads or writes (`Id`, `Email`, `HashedPassword`). -/
structure User where
  Id : Int
  Email : String
  HashedPassword : String
deriving DecidableEq, Repr, Inhabited

/-- Modelled from the spec: the storage handle `model.DB`, reduced to the three
calls that `ApplyFileActionsToFilesTable` makes on the files table, over a
state `σ` of the persisted file index: `Create(&file)`,
`Where("path = ?", path).First(&file)` (`none`: the query reports an error and
leaves `file` untouched) and `Delete(&file)`. -/
structure DB (σ : Type) where
  Create : σ → model.File → σ
  First : σ → String → Option model.File
  Delete : σ → model.File → σ

/-- Modelled from the spec: the `model.Client` record, with its identifier and
the fields that `boxtools.go` writes (`UserId`, `SessionKey`). -/
structure Client where
  Id : Int
  UserId : Int
  SessionKey : String
deriving DecidableEq, Repr, Inhabited

end model

namespace boxtools

open model

/-- A Go `map[string]int`: `none` stands for an absent key. -/
abbrev ActionMap := String → Option Int

/-- The value `make(map[string]int)`. -/
def emptyActionMap : ActionMap := fun _ => none

/-- The assignment `m[key] = value`. -/
def ActionMap.set (m : ActionMap) (key : String) (value : Int) : ActionMap :=
  fun k => if k = key then some value else m k

/-- The local `isCreateMap`: `isCreateMap[true] = "1"`, `isCreateMap[false] = "0"`. -/
def isCreateMap (b : Bool) : String := if b then "1" else "0"

/-- The key of the tally pass:
`isCreateMap[action.IsCreate] + action.File.Path + action.File.Hash`. -/
def actionKey (action : FileAction) : String :=
  isCreateMap action.IsCreate ++ action.File.Path ++ action.File.Hash

/-- The local `opposingTask` of the cancellation pass. -/
def opposingTask (action : FileAction) : String :=
  if action.IsCreate = true then isCreateMap false else isCreateMap true

/-- The key of the cancellation pass:
`opposingTask + action.File.Path + action.File.Hash`. -/
def opposingMapKey (action : FileAction) : String :=
  opposingTask action ++ action.File.Path ++ action.File.Hash

/-- One iteration of the first loop: count one more occurrence of the key. -/
def tallyStep (actionMap : ActionMap) (action : FileAction) : ActionMap :=
  match actionMap (actionKey action) with
  | some value => actionMap.set (actionKey action) (value + 1)
  | none => actionMap.set (actionKey action) 1

/-- One iteration of the second loop, on the pair of the map and of the slice
`simplifiedFileActions` built so far. -/
def cancelStep (st : ActionMap × List FileAction) (action : FileAction) :
    ActionMap × List FileAction :=
  match st.1 (opposingMapKey action) with
  | some value =>
    if value > 0 then (st.1.set (opposingMapKey action) (value - 1), st.2)
    else (st.1, st.2 ++ [action])
  | none => (st.1, st.2 ++ [action])

/-- The compactor: both loops run over the same input slice. -/
def RemoveRedundancyFromFileActions (fileActions : List FileAction) : List FileAction :=
  let actionMap := fileActions.foldl tallyStep emptyActionMap
  (fileActions.foldl cancelStep (actionMap, [])).2

/-- The materializer: compacts its argument, then collects the `File` of every
surviving action. -/
def ComputeFilesFromFileActions (fileActions : List FileAction) : List File :=
  let simplifiedFileActions := RemoveRedundancyFromFileActions fileActions
  simplifiedFileActions.foldl (fun files value => files ++ [value.File]) []

/-- One iteration of the loop of `ApplyFileActionsToFilesTable`, on the pair of
the index state and of the named result `err`. Both `if` statements of the
deletion branch have an empty body in the source, so neither changes the state
or `err`; `file` keeps its zero value when the query fails. -/
def applyStep {σ : Type} (db : DB σ) (st : σ × Option String) (fileAction : FileAction) :
    σ × Option String :=
  if fileAction.IsCreate = true then
    (db.Create st.1 fileAction.File, st.2)
  else
    let file : File :=
      match db.First st.1 fileAction.File.Path with
      | some row => row
      | none => default
    (db.Delete st.1 file, st.2)

/-- The applier: returns the final state of the index and the named result
`err` (`none` is Go's `nil`). The parameter `user` is not read by the source. -/
def ApplyFileActionsToFilesTable {σ : Type} (db : DB σ) (fileActions : List FileAction)
    (_user : User) (s : σ) : σ × Option String :=
  fileActions.foldl (applyStep db) (s, none)

/-- Modelled from the spec: the persisted file index behind `model.DB`, as the
list of its File rows in insertion order. `Create` adds the row, `First`
returns the first row stored at the path, `Delete` removes the given row. -/
def filesTable : DB (List File) where
  Create rows file := rows ++ [file]
  First rows path := rows.find? (fun row => row.Path = path)
  Delete rows file := rows.erase file

/-- A creation of the content `hash` at `path` (the other fields are zero). -/
def mkCreate (path hash : String) : FileAction :=
  { (default : FileAction) with IsCreate := true, File := { (default : File) with Path := path, Hash := hash } }

/-- A deletion of the content `hash` at `path` (the other fields are zero). -/
def mkDelete (path hash : String) : FileAction :=
  { (default : FileAction) with IsCreate := false, File := { (default : File) with Path := path, Hash := hash } }

/-- A File row owned by `userId`, holding the content `hash` at `path` (the
other fields are zero). -/
def mkRow (userId : Int) (path hash : String) : File :=
  { (default : File) with UserId := userId, Path := path, Hash := hash }

/-- The user with identifier `id` (the other fields are zero). -/
def mkUser (id : Int) : User :=
  { (default : User) with Id := id }

/-- The decoder `ConvertJsonStringToFileActionsStruct`, over the library call
`json.Unmarshal` (`.error e`: a non-nil error, `.ok v`: the value written into
the local `unmarshalledFileAction`). It returns the named results `fileAction`
and `err`. The source never assigns `fileAction`, so it holds its zero value on
both returns; `client` is not read. -/
def ConvertJsonStringToFileActionsStruct (jsonUnmarshal : String → Except String FileAction)
    (jsonFileAction : String) (_client : Client) : FileAction × Option String :=
  let fileAction : FileAction := default
  match jsonUnmarshal jsonFileAction with
  | .error err => (fileAction, some ("Error unmarshaling json to model.FileAction: " ++ err))
  | .ok _unmarshalledFileAction => (fileAction, none)

/-- The encoder `ConvertFileActionStructToJsonString`, over the library call
`json.Marshal`. It returns the named results `fileActionJson` and `err`. -/
def ConvertFileActionStructToJsonString (jsonMarshal : FileAction → Except String String)
    (fileActionStruct : FileAction) : String × Option String :=
  match jsonMarshal fileActionStruct with
  | .error err => ("", some err)
  | .ok jsonBytes => (jsonBytes, none)

/-! ## Auxiliary definitions used by the proofs -/

/-- The part of both keys that follows the task digit: `File.Path + File.Hash`. -/
def pathHash (action : FileAction) : String :=
  action.File.Path ++ action.File.Hash

/-- The tally read at a key, an absent key counting for zero. -/
def tallyAt (m : ActionMap) (key : String) : Int := (m key).getD 0

/-- Number of actions of the slice with the given task and `Path + Hash` string. -/
def cnt (b : Bool) (s : String) (l : List FileAction) : Nat :=
  l.countP (fun a => decide (a.IsCreate = b ∧ pathHash a = s))

/-- The second loop as a recursion on the part of the slice still to visit. -/
def cancelFrom (m : ActionMap) : List FileAction → List FileAction
  | [] => []
  | a :: rest =>
    if 0 < tallyAt m (opposingMapKey a) then
      cancelFrom (m.set (opposingMapKey a) (tallyAt m (opposingMapKey a) - 1)) rest
    else a :: cancelFrom m rest

/-- Number of actions of the slice with the given task, path and hash. -/
def countActions (isCreate : Bool) (path hash : String) (l : List FileAction) : Nat :=
  l.countP (fun a => decide (a.IsCreate = isCreate ∧ a.File.Path = path ∧ a.File.Hash = hash))

/-- Net balance of the bucket `(path, hash)` in a slice: its creations minus
its deletions. -/
def balance (path hash : String) (l : List FileAction) : Int :=
  (countActions true path hash l : Int) - (countActions false path hash l : Int)

/-- One iteration of the second loop, recording for the visited position
whether the action is appended to `simplifiedFileActions` (`true`) or dropped
(`false`), in place of the action itself. -/
def maskStep (st : ActionMap × List Bool) (action : FileAction) : ActionMap × List Bool :=
  match st.1 (opposingMapKey action) with
  | some value =>
    if value > 0 then (st.1.set (opposingMapKey action) (value - 1), st.2 ++ [false])
    else (st.1, st.2 ++ [true])
  | none => (st.1, st.2 ++ [true])

/-- The decisions of the compactor, position by position: `true` where the
second loop keeps the action. -/
def keptMask (fileActions : List FileAction) : List Bool :=
  let actionMap := fileActions.foldl tallyStep emptyActionMap
  (fileActions.foldl maskStep (actionMap, [])).2

/-- The actions of a slice at the positions that a mask marks `true`. -/
def selectKept (l : List FileAction) (mask : List Bool) : List FileAction :=
  ((l.zip mask).filter (fun q => q.2)).map (fun q => q.1)

/-- The decisions of the second loop as a recursion on the part of the slice
still to visit. -/
def maskFrom (m : ActionMap) : List FileAction → List Bool
  | [] => []
  | a :: rest =>
    if 0 < tallyAt m (opposingMapKey a) then
      false :: maskFrom (m.set (opposingMapKey a) (tallyAt m (opposingMapKey a) - 1)) rest
    else true :: maskFrom m rest

/-- The closed form of survivor selection: the action `a` at position `i` of `l`
survives when the actions before position `i` with its task and its
`Path + Hash` string are at least as many as the actions of `l` with the
opposite task and the same string. -/
def survives (l : List FileAction) (i : Nat) (a : FileAction) : Bool :=
  decide (cnt (!a.IsCreate) (pathHash a) l ≤ cnt a.IsCreate (pathHash a) (l.take i))

/-- Two actions agree on `IsCreate`, `File.Path` and `File.Hash`. -/
def sameKey (a b : FileAction) : Prop :=
  a.IsCreate = b.IsCreate ∧ a.File.Path = b.File.Path ∧ a.File.Hash = b.File.Hash

/-! ## Keys -/

theorem actionKey_eq (a : FileAction) :
    actionKey a = isCreateMap a.IsCreate ++ pathHash a := by
  simp [actionKey, pathHash, String.append_assoc]

theorem opposingMapKey_eq (a : FileAction) :
    opposingMapKey a = isCreateMap (!a.IsCreate) ++ pathHash a := by
  cases h : a.IsCreate <;> simp [opposingMapKey, opposingTask, pathHash, String.append_assoc, h]

theorem isCreateMap_append_inj (b b' : Bool) (s s' : String) :
    isCreateMap b ++ s = isCreateMap b' ++ s' ↔ b = b' ∧ s = s' := by
  constructor
  · intro h
    have hd := congrArg String.data h
    cases b <;> cases b' <;> simp [isCreateMap, String.data_append] at hd
    · exact ⟨rfl, String.ext hd⟩
    · exact ⟨rfl, String.ext hd⟩
  · rintro ⟨rfl, rfl⟩
    rfl

theorem append_right_inj_string (p h h' : String) : p ++ h = p ++ h' ↔ h = h' := by
  constructor
  · intro e
    have hd := congrArg String.data e
    simp [String.data_append] at hd
    exact String.ext hd
  · rintro rfl
    rfl

/-! ## The tally pass -/

theorem tallyAt_set (m : ActionMap) (key k : String) (v : Int) :
    tallyAt (m.set key v) k = if k = key then v else tallyAt m k := by
  unfold tallyAt ActionMap.set
  split <;> simp

theorem tallyAt_tallyStep (m : ActionMap) (a : FileAction) (k : String) :
    tallyAt (tallyStep m a) k = tallyAt m k + (if k = actionKey a then 1 else 0) := by
  unfold tallyStep
  cases h : m (actionKey a) with
  | none =>
    simp only [tallyAt_set]
    split
    · next hk => subst hk; simp [tallyAt, h]
    · simp
  | some v =>
    simp only [tallyAt_set]
    split
    · next hk => subst hk; simp [tallyAt, h]
    · simp

theorem cnt_cons (b : Bool) (s : String) (a : FileAction) (l : List FileAction) :
    cnt b s (a :: l) = cnt b s l + (if a.IsCreate = b ∧ pathHash a = s then 1 else 0) := by
  simp [cnt, List.countP_cons]

theorem tallyAt_foldl_tallyStep (l : List FileAction) (m : ActionMap) (b : Bool) (s : String) :
    tallyAt (l.foldl tallyStep m) (isCreateMap b ++ s)
      = tallyAt m (isCreateMap b ++ s) + (cnt b s l : Int) := by
  induction l generalizing m with
  | nil => simp [cnt]
  | cons a l ih =>
    rw [List.foldl_cons, ih, tallyAt_tallyStep, cnt_cons, actionKey_eq]
    by_cases h : a.IsCreate = b ∧ pathHash a = s
    · have h' : isCreateMap b ++ s = isCreateMap a.IsCreate ++ pathHash a := by
        rw [h.1, h.2]
      rw [if_pos h, if_pos h']
      push_cast
      omega
    · have h' : ¬ (isCreateMap b ++ s = isCreateMap a.IsCreate ++ pathHash a) := by
        rw [isCreateMap_append_inj]
        exact fun x => h ⟨x.1.symm, x.2.symm⟩
      rw [if_neg h, if_neg h']
      simp

theorem tallyAt_empty (k : String) : tallyAt emptyActionMap k = 0 := rfl

/-- After the first loop the map holds, at each key, the number of actions of
the slice with that task and that `Path + Hash` string. -/
theorem tallyAt_tally (l : List FileAction) (b : Bool) (s : String) :
    tallyAt (l.foldl tallyStep emptyActionMap) (isCreateMap b ++ s) = (cnt b s l : Int) := by
  rw [tallyAt_foldl_tallyStep, tallyAt_empty]; simp

/-! ## The cancellation pass -/

theorem cancelStep_eq (m : ActionMap) (out : List FileAction) (a : FileAction) :
    cancelStep (m, out) a
      = if 0 < tallyAt m (opposingMapKey a) then
          (m.set (opposingMapKey a) (tallyAt m (opposingMapKey a) - 1), out)
        else (m, out ++ [a]) := by
  unfold cancelStep tallyAt
  cases h : m (opposingMapKey a) with
  | none => simp [h]
  | some v => simp [h]

theorem foldl_cancelStep (l : List FileAction) (m : ActionMap) (out : List FileAction) :
    (l.foldl cancelStep (m, out)).2 = out ++ cancelFrom m l := by
  induction l generalizing m out with
  | nil => simp [cancelFrom]
  | cons a l ih =>
    rw [List.foldl_cons, cancelStep_eq]
    by_cases h : 0 < tallyAt m (opposingMapKey a)
    · rw [if_pos h, ih]
      simp [cancelFrom, h]
    · rw [if_neg h, ih]
      simp [cancelFrom, h]

theorem RemoveRedundancyFromFileActions_eq (l : List FileAction) :
    RemoveRedundancyFromFileActions l = cancelFrom (l.foldl tallyStep emptyActionMap) l := by
  simp [RemoveRedundancyFromFileActions, foldl_cancelStep]

theorem cancelFrom_sublist (l : List FileAction) (m : ActionMap) :
    (cancelFrom m l).Sublist l := by
  induction l generalizing m with
  | nil => simp [cancelFrom]
  | cons a l ih =>
    unfold cancelFrom
    split
    · exact (ih _).cons a
    · exact (ih _).cons₂ a

/-- The cancellation pass returns its input when no opposing tally is positive. -/
theorem cancelFrom_eq_self (l : List FileAction) (m : ActionMap)
    (h : ∀ a ∈ l, tallyAt m (opposingMapKey a) ≤ 0) : cancelFrom m l = l := by
  induction l with
  | nil => simp [cancelFrom]
  | cons a l ih =>
    have ha : ¬ 0 < tallyAt m (opposingMapKey a) := not_lt.mpr (h a (List.mem_cons_self a l))
    unfold cancelFrom
    rw [if_neg ha, ih (fun x hx => h x (List.mem_cons_of_mem a hx))]

/-- Survivors of the cancellation pass, counted per task and `Path + Hash`
string: the opposing tally found on entry is taken off the count. -/
theorem cnt_cancelFrom (l : List FileAction) (m : ActionMap) (b : Bool) (s : String) :
    cnt b s (cancelFrom m l) = cnt b s l - (tallyAt m (isCreateMap (!b) ++ s)).toNat := by
  induction l generalizing m with
  | nil => simp [cancelFrom, cnt]
  | cons a l ih =>
    unfold cancelFrom
    by_cases hk : a.IsCreate = b ∧ pathHash a = s
    · have hkey : opposingMapKey a = isCreateMap (!b) ++ s := by
        rw [opposingMapKey_eq, hk.1, hk.2]
      by_cases h : 0 < tallyAt m (opposingMapKey a)
      · rw [if_pos h, ih, cnt_cons, if_pos hk, tallyAt_set, hkey, if_pos rfl]
        rw [hkey] at h
        omega
      · rw [if_neg h, cnt_cons, cnt_cons, if_pos hk, ih]
        rw [hkey] at h
        omega
    · have hkey : ¬ (isCreateMap (!b) ++ s = opposingMapKey a) := by
        rw [opposingMapKey_eq, isCreateMap_append_inj]
        rintro ⟨h1, h2⟩
        apply hk
        refine ⟨?_, h2.symm⟩
        cases hb : b <;> cases ha : a.IsCreate <;> simp [hb, ha] at h1 ⊢
      by_cases h : 0 < tallyAt m (opposingMapKey a)
      · rw [if_pos h, ih, cnt_cons, if_neg hk, tallyAt_set, if_neg hkey]
        simp
      · rw [if_neg h, cnt_cons, cnt_cons, if_neg hk, ih]
        simp

/-- Survivors of the compactor, counted per task and `Path + Hash` string. -/
theorem cnt_RemoveRedundancyFromFileActions (l : List FileAction) (b : Bool) (s : String) :
    cnt b s (RemoveRedundancyFromFileActions l) = cnt b s l - cnt (!b) s l := by
  rw [RemoveRedundancyFromFileActions_eq, cnt_cancelFrom, tallyAt_tally]
  simp

theorem cnt_pos_of_mem (l : List FileAction) (a : FileAction) (h : a ∈ l) :
    0 < cnt a.IsCreate (pathHash a) l := by
  unfold cnt
  rw [List.countP_pos_iff]
  exact ⟨a, h, by simp⟩

theorem cnt_eq_zero_iff (l : List FileAction) (b : Bool) (s : String) :
    cnt b s l = 0 ↔ ∀ a ∈ l, ¬ (a.IsCreate = b ∧ pathHash a = s) := by
  unfold cnt
  rw [List.countP_eq_zero]
  simp

/-- The compactor leaves its own output unchanged. -/
theorem RemoveRedundancyFromFileActions_idem (l : List FileAction) :
    RemoveRedundancyFromFileActions (RemoveRedundancyFromFileActions l)
      = RemoveRedundancyFromFileActions l := by
  rw [RemoveRedundancyFromFileActions_eq (RemoveRedundancyFromFileActions l)]
  apply cancelFrom_eq_self
  intro a ha
  rw [opposingMapKey_eq, tallyAt_tally, cnt_RemoveRedundancyFromFileActions]
  have hpos := cnt_pos_of_mem _ a ha
  rw [cnt_RemoveRedundancyFromFileActions] at hpos
  simp only [Bool.not_not]
  have : cnt (!a.IsCreate) (pathHash a) l - cnt a.IsCreate (pathHash a) l = 0 := by omega
  rw [this]
  simp

theorem foldl_append_File (l : List FileAction) (files : List File) :
    l.foldl (fun files value => files ++ [value.File]) files
      = files ++ l.map (fun value => value.File) := by
  induction l generalizing files with
  | nil => simp
  | cons a l ih => simp [ih]

/-- The compactor returns nothing exactly when no task outnumbers the opposing
task on any `Path + Hash` string. -/
theorem RemoveRedundancyFromFileActions_eq_nil (l : List FileAction)
    (h : ∀ b s, cnt b s l ≤ cnt (!b) s l) : RemoveRedundancyFromFileActions l = [] := by
  rw [List.eq_nil_iff_forall_not_mem]
  intro a ha
  have hpos := cnt_pos_of_mem _ a ha
  rw [cnt_RemoveRedundancyFromFileActions] at hpos
  have := h a.IsCreate (pathHash a)
  omega

/-- The named result `err` is never assigned: whatever the storage handle, the
index state and the batch, the applier returns `nil`. -/
theorem ApplyFileActionsToFilesTable_err {σ : Type} (db : DB σ) (fileActions : List FileAction)
    (user : User) (s : σ) : (ApplyFileActionsToFilesTable db fileActions user s).2 = none := by
  unfold ApplyFileActionsToFilesTable
  suffices h : ∀ (l : List FileAction) (st : σ × Option String),
      st.2 = none → (l.foldl (applyStep db) st).2 = none from h fileActions (s, none) rfl
  intro l
  induction l with
  | nil => intro st hst; simpa using hst
  | cons a l ih =>
    intro st hst
    rw [List.foldl_cons]
    apply ih
    unfold applyStep
    split <;> simpa using hst

/-! ## The claims -/

/-- C1 (evaluation at a failing input): on the batch made of a creation of the
content "bc" at path "a" and a deletion of the content "c" at path "ab", the
compactor returns the empty slice, because both actions share the string
"abc" after the task digit. The bucket ("a", "bc") thus has balance 1 in the
input and balance 0 in the output: the net balance is not preserved. -/
theorem balance_lost_on_colliding_keys :
    RemoveRedundancyFromFileActions [mkCreate "a" "bc", mkDelete "ab" "c"] = [] ∧
    balance "a" "bc" [mkCreate "a" "bc", mkDelete "ab" "c"] = 1 ∧
    balance "a" "bc" (RemoveRedundancyFromFileActions [mkCreate "a" "bc", mkDelete "ab" "c"]) = 0 := by
  decide

/-- C2: the output of the compactor never holds both a creation and a deletion
of the same path and hash. -/
theorem no_create_delete_pair_survives (fileActions : List FileAction) (path hash : String) :
    ¬ ((∃ a ∈ RemoveRedundancyFromFileActions fileActions,
          a.IsCreate = true ∧ a.File.Path = path ∧ a.File.Hash = hash) ∧
       (∃ a ∈ RemoveRedundancyFromFileActions fileActions,
          a.IsCreate = false ∧ a.File.Path = path ∧ a.File.Hash = hash)) := by
  rintro ⟨⟨a, ha, hac, hap, hah⟩, ⟨b, hb, hbc, hbp, hbh⟩⟩
  have hs : pathHash b = pathHash a := by simp [pathHash, hap, hah, hbp, hbh]
  have h1 := cnt_pos_of_mem _ a ha
  have h2 := cnt_pos_of_mem _ b hb
  rw [cnt_RemoveRedundancyFromFileActions, hac] at h1
  rw [cnt_RemoveRedundancyFromFileActions, hbc, hs] at h2
  simp only [Bool.not_true, Bool.not_false] at h1 h2
  omega

/-- C3: the output of the compactor is a subsequence of its input: it is the
input with some elements deleted, the kept actions being unchanged and in
their input order. -/
theorem RemoveRedundancyFromFileActions_sublist (fileActions : List FileAction) :
    (RemoveRedundancyFromFileActions fileActions).Sublist fileActions := by
  rw [RemoveRedundancyFromFileActions_eq]
  exact cancelFrom_sublist _ _

/-- C4 (evaluation at a failing input): in the batch made of a creation of the
content "bc" at path "a" and a deletion of the content "c" at path "ab", the
two actions have different (path, hash) pairs, so no creation shares its pair
with a deletion; yet the compactor does not return the batch unchanged. -/
theorem disjoint_buckets_cancel_on_colliding_keys :
    (∀ a ∈ [mkCreate "a" "bc", mkDelete "ab" "c"], ∀ b ∈ [mkCreate "a" "bc", mkDelete "ab" "c"],
        a.IsCreate = true → b.IsCreate = false →
          ¬ (a.File.Path = b.File.Path ∧ a.File.Hash = b.File.Hash)) ∧
    RemoveRedundancyFromFileActions [mkCreate "a" "bc", mkDelete "ab" "c"]
      ≠ [mkCreate "a" "bc", mkDelete "ab" "c"] := by
  decide

/-- C5: a creation and a deletion of the same path and hash, in either order
and whatever their other fields, cancel each other: the compactor returns the
empty slice. -/
theorem full_cancellation (a b : FileAction)
    (ha : a.IsCreate = true) (hb : b.IsCreate = false)
    (hp : a.File.Path = b.File.Path) (hh : a.File.Hash = b.File.Hash) :
    RemoveRedundancyFromFileActions [a, b] = [] ∧ RemoveRedundancyFromFileActions [b, a] = [] := by
  have hs : pathHash a = pathHash b := by simp [pathHash, hp, hh]
  constructor
  · simp [RemoveRedundancyFromFileActions_eq, cancelFrom, opposingMapKey_eq, tallyAt_tallyStep,
      tallyAt_empty, actionKey_eq, tallyAt_set, isCreateMap_append_inj, ha, hb, hs]
  · simp [RemoveRedundancyFromFileActions_eq, cancelFrom, opposingMapKey_eq, tallyAt_tallyStep,
      tallyAt_empty, actionKey_eq, tallyAt_set, isCreateMap_append_inj, ha, hb, hs]

theorem full_cancellation_witness :
    (mkCreate "a.txt" "H1").IsCreate = true ∧ (mkDelete "a.txt" "H1").IsCreate = false ∧
    (mkCreate "a.txt" "H1").File.Path = (mkDelete "a.txt" "H1").File.Path ∧
    (mkCreate "a.txt" "H1").File.Hash = (mkDelete "a.txt" "H1").File.Hash ∧
    RemoveRedundancyFromFileActions [mkCreate "a.txt" "H1", mkDelete "a.txt" "H1"] = [] ∧
    RemoveRedundancyFromFileActions [mkDelete "a.txt" "H1", mkCreate "a.txt" "H1"] = [] :=
  ⟨rfl, rfl, rfl, rfl,
    full_cancellation (mkCreate "a.txt" "H1") (mkDelete "a.txt" "H1") rfl rfl rfl rfl⟩

/-- C6: on a creation, a deletion and a second creation of the same path `P`
and hash `H`, the compactor returns exactly one action, and that action is a
creation of `P` and `H`. -/
theorem surplus_creation (P H : String) (c₁ d c₂ : FileAction)
    (h₁ : c₁.IsCreate = true ∧ c₁.File.Path = P ∧ c₁.File.Hash = H)
    (h₂ : d.IsCreate = false ∧ d.File.Path = P ∧ d.File.Hash = H)
    (h₃ : c₂.IsCreate = true ∧ c₂.File.Path = P ∧ c₂.File.Hash = H) :
    ∃ x, RemoveRedundancyFromFileActions [c₁, d, c₂] = [x] ∧
      x.IsCreate = true ∧ x.File.Path = P ∧ x.File.Hash = H := by
  refine ⟨c₂, ?_, h₃⟩
  obtain ⟨h₁c, h₁p, h₁h⟩ := h₁
  obtain ⟨h₂c, h₂p, h₂h⟩ := h₂
  obtain ⟨h₃c, h₃p, h₃h⟩ := h₃
  have s₁ : pathHash c₁ = P ++ H := by simp [pathHash, h₁p, h₁h]
  have s₂ : pathHash d = P ++ H := by simp [pathHash, h₂p, h₂h]
  have s₃ : pathHash c₂ = P ++ H := by simp [pathHash, h₃p, h₃h]
  simp [RemoveRedundancyFromFileActions_eq, cancelFrom, opposingMapKey_eq, tallyAt_tallyStep,
    tallyAt_empty, actionKey_eq, tallyAt_set, isCreateMap_append_inj, h₁c, h₂c, h₃c, s₁, s₂, s₃]

theorem surplus_creation_witness :
    ((mkCreate "a.txt" "H1").IsCreate = true ∧ (mkCreate "a.txt" "H1").File.Path = "a.txt" ∧
      (mkCreate "a.txt" "H1").File.Hash = "H1") ∧
    ((mkDelete "a.txt" "H1").IsCreate = false ∧ (mkDelete "a.txt" "H1").File.Path = "a.txt" ∧
      (mkDelete "a.txt" "H1").File.Hash = "H1") ∧
    ∃ x, RemoveRedundancyFromFileActions
          [mkCreate "a.txt" "H1", mkDelete "a.txt" "H1", mkCreate "a.txt" "H1"] = [x] ∧
      x.IsCreate = true ∧ x.File.Path = "a.txt" ∧ x.File.Hash = "H1" :=
  ⟨⟨rfl, rfl, rfl⟩, ⟨rfl, rfl, rfl⟩,
    surplus_creation "a.txt" "H1" (mkCreate "a.txt" "H1") (mkDelete "a.txt" "H1")
      (mkCreate "a.txt" "H1") ⟨rfl, rfl, rfl⟩ ⟨rfl, rfl, rfl⟩ ⟨rfl, rfl, rfl⟩⟩

/-- C7: for a path `P` and two different hashes `H1` and `H2`, on a creation of
`(P, H1)`, a deletion of `(P, H1)` and a creation of `(P, H2)` the compactor
returns exactly the one-element slice holding the third action. -/
theorem end_to_end_compaction (P H1 H2 : String) (a₁ a₂ a₃ : FileAction)
    (hne : H1 ≠ H2)
    (h₁ : a₁.IsCreate = true ∧ a₁.File.Path = P ∧ a₁.File.Hash = H1)
    (h₂ : a₂.IsCreate = false ∧ a₂.File.Path = P ∧ a₂.File.Hash = H1)
    (h₃ : a₃.IsCreate = true ∧ a₃.File.Path = P ∧ a₃.File.Hash = H2) :
    RemoveRedundancyFromFileActions [a₁, a₂, a₃] = [a₃] := by
  obtain ⟨h₁c, h₁p, h₁h⟩ := h₁
  obtain ⟨h₂c, h₂p, h₂h⟩ := h₂
  obtain ⟨h₃c, h₃p, h₃h⟩ := h₃
  have s₁ : pathHash a₁ = P ++ H1 := by simp [pathHash, h₁p, h₁h]
  have s₂ : pathHash a₂ = P ++ H1 := by simp [pathHash, h₂p, h₂h]
  have s₃ : pathHash a₃ = P ++ H2 := by simp [pathHash, h₃p, h₃h]
  have hne' : ¬ (H2 = H1) := fun e => hne e.symm
  simp [RemoveRedundancyFromFileActions_eq, cancelFrom, opposingMapKey_eq, tallyAt_tallyStep,
    tallyAt_empty, actionKey_eq, tallyAt_set, isCreateMap_append_inj, append_right_inj_string,
    h₁c, h₂c, h₃c, s₁, s₂, s₃, hne, hne']

theorem end_to_end_compaction_witness :
    "H1" ≠ "H2" ∧
    RemoveRedundancyFromFileActions
        [mkCreate "a.txt" "H1", mkDelete "a.txt" "H1", mkCreate "a.txt" "H2"]
      = [mkCreate "a.txt" "H2"] :=
  ⟨by decide,
    end_to_end_compaction "a.txt" "H1" "H2" (mkCreate "a.txt" "H1") (mkDelete "a.txt" "H1")
      (mkCreate "a.txt" "H2") (by decide) ⟨rfl, rfl, rfl⟩ ⟨rfl, rfl, rfl⟩ ⟨rfl, rfl, rfl⟩⟩

/-- C8 (evaluation at a failing input): the batches
`[create ("a","bc"), create ("ab","c"), delete ("a","bc")]` and
`[create ("ab","c"), create ("a","bc"), delete ("a","bc")]` are permutations of
each other, yet the output of the compactor holds no creation of ("a", "bc")
for the first and one creation of ("a", "bc") for the second. -/
theorem permuted_batches_differ_on_colliding_keys :
    List.Perm [mkCreate "a" "bc", mkCreate "ab" "c", mkDelete "a" "bc"]
      [mkCreate "ab" "c", mkCreate "a" "bc", mkDelete "a" "bc"] ∧
    countActions true "a" "bc" (RemoveRedundancyFromFileActions
      [mkCreate "a" "bc", mkCreate "ab" "c", mkDelete "a" "bc"]) = 0 ∧
    countActions true "a" "bc" (RemoveRedundancyFromFileActions
      [mkCreate "ab" "c", mkCreate "a" "bc", mkDelete "a" "bc"]) = 1 :=
  ⟨List.Perm.swap _ _ _, by decide, by decide⟩

/-- C9: on a slice that the compactor has produced, the materializer returns
exactly the embedded `File` of every action, one per action and in the same
order. -/
theorem ComputeFilesFromFileActions_of_simplified (x : List FileAction) :
    ComputeFilesFromFileActions (RemoveRedundancyFromFileActions x)
      = (RemoveRedundancyFromFileActions x).map (fun action => action.File) := by
  unfold ComputeFilesFromFileActions
  simp only [RemoveRedundancyFromFileActions_idem, foldl_append_File, List.nil_append]

/-- C10 (evaluation at failing inputs): the applier returns `nil` on a creation
for a path that already has a row, on a deletion for a path that has no row,
and on a deletion whose hash differs from the hash of the stored row. -/
theorem ApplyFileActionsToFilesTable_nil_on_inconsistent_batch :
    ((filesTable.First [(mkCreate "a.txt" "H1").File] "a.txt").isSome = true ∧
      (ApplyFileActionsToFilesTable filesTable [mkCreate "a.txt" "H2"] default
        [(mkCreate "a.txt" "H1").File]).2 = none) ∧
    (filesTable.First [] "a.txt" = none ∧
      (ApplyFileActionsToFilesTable filesTable [mkDelete "a.txt" "H1"] default []).2 = none) ∧
    ((filesTable.First [(mkCreate "a.txt" "H1").File] "a.txt").map (fun row => row.Hash)
        = some "H1" ∧ "H1" ≠ (mkDelete "a.txt" "H2").File.Hash ∧
      (ApplyFileActionsToFilesTable filesTable [mkDelete "a.txt" "H2"] default
        [(mkCreate "a.txt" "H1").File]).2 = none) := by
  decide

/-! ## The applier on the index -/

theorem applyStep_create {σ : Type} (db : DB σ) (s : σ) (e : Option String) (a : FileAction)
    (ha : a.IsCreate = true) : applyStep db (s, e) a = (db.Create s a.File, e) := by
  simp [applyStep, ha]

/-- A deletion removes the row found at its path, whatever the hash of that row. -/
theorem applyStep_delete_found {σ : Type} (db : DB σ) (s : σ) (e : Option String)
    (a : FileAction) (row : File) (ha : a.IsCreate = false)
    (hrow : db.First s a.File.Path = some row) :
    applyStep db (s, e) a = (db.Delete s row, e) := by
  simp [applyStep, ha, hrow]

/-- The applier does not depend on the user it is given. -/
theorem ApplyFileActionsToFilesTable_user {σ : Type} (db : DB σ) (fileActions : List FileAction)
    (user user' : User) (s : σ) :
    ApplyFileActionsToFilesTable db fileActions user s
      = ApplyFileActionsToFilesTable db fileActions user' s := rfl

theorem foldl_applyStep_creations (batch : List FileAction) (rows : List File)
    (e : Option String) (h : ∀ a ∈ batch, a.IsCreate = true) :
    batch.foldl (applyStep filesTable) (rows, e)
      = (rows ++ batch.map (fun a => a.File), e) := by
  induction batch generalizing rows with
  | nil => simp
  | cons a l ih =>
    rw [List.foldl_cons, applyStep_create _ _ _ _ (h a (List.mem_cons_self a l)),
      ih _ (fun x hx => h x (List.mem_cons_of_mem a hx))]
    simp [filesTable]

/-- C11 (evaluation at a failing input): the index holds one row, at path
"a.txt" with hash "H1"; the batch is one deletion of path "a.txt" with hash
"H2". The lookup finds the row, the hashes differ, and the row is no longer in
the index after the applier has run. -/
theorem mismatched_deletion_removes_row :
    filesTable.First [mkRow 0 "a.txt" "H1"] (mkDelete "a.txt" "H2").File.Path
      = some (mkRow 0 "a.txt" "H1") ∧
    (mkRow 0 "a.txt" "H1").Hash ≠ (mkDelete "a.txt" "H2").File.Hash ∧
    mkRow 0 "a.txt" "H1" ∉
      (ApplyFileActionsToFilesTable filesTable [mkDelete "a.txt" "H2"] (mkUser 0)
        [mkRow 0 "a.txt" "H1"]).1 := by
  decide

/-- C12 (evaluation at a failing input): the index holds one row, owned by user
2, at path "a.txt"; the applier runs for user 1 on one deletion of path
"a.txt" whose snapshot belongs to user 1. The row of user 2 is no longer in the
index afterwards. -/
theorem deletion_removes_row_of_other_owner :
    (mkRow 2 "a.txt" "H1").UserId ≠ (mkUser 1).Id ∧
    mkRow 2 "a.txt" "H1" ∉
      (ApplyFileActionsToFilesTable filesTable
        [{ mkDelete "a.txt" "H1" with File := mkRow 1 "a.txt" "H1" }] (mkUser 1)
        [mkRow 2 "a.txt" "H1"]).1 := by
  decide

/-- C13 (evaluation at a failing input): the applier runs for user 7 on one
creation whose snapshot carries the owner reference 0; the row it inserts is
that snapshot, with owner reference 0 and not 7. -/
theorem inserted_row_keeps_snapshot_owner :
    (ApplyFileActionsToFilesTable filesTable [mkCreate "a.txt" "H2"] (mkUser 7) []).1
      = [(mkCreate "a.txt" "H2").File] ∧
    (mkCreate "a.txt" "H2").File.UserId = 0 ∧
    (mkCreate "a.txt" "H2").File.UserId ≠ (mkUser 7).Id := by
  decide

/-- C14: on a batch of creations the index afterwards holds the previous rows,
unchanged and in place, followed by one new row per action, the snapshot of
that action (so with its path and hash); in particular the batch made of the
creation of ("a.txt", "H2") leaves exactly that one row in an empty index. -/
theorem apply_creations_appends_snapshots (rows : List File) (batch : List FileAction)
    (user : User) (h : ∀ a ∈ batch, a.IsCreate = true) :
    (ApplyFileActionsToFilesTable filesTable batch user rows).1
        = rows ++ batch.map (fun a => a.File) ∧
    (ApplyFileActionsToFilesTable filesTable [mkCreate "a.txt" "H2"] user []).1
        = [mkRow 0 "a.txt" "H2"] := by
  constructor
  · unfold ApplyFileActionsToFilesTable
    rw [foldl_applyStep_creations batch rows none h]
  · rfl

theorem apply_creations_appends_snapshots_witness :
    (∀ a ∈ [mkCreate "a.txt" "H2", mkCreate "b.txt" "H3"], a.IsCreate = true) ∧
    (ApplyFileActionsToFilesTable filesTable [mkCreate "a.txt" "H2", mkCreate "b.txt" "H3"]
        (mkUser 1) [mkRow 1 "c.txt" "H1"]).1
      = [mkRow 1 "c.txt" "H1"]
          ++ [mkCreate "a.txt" "H2", mkCreate "b.txt" "H3"].map (fun a => a.File) ∧
    (ApplyFileActionsToFilesTable filesTable [mkCreate "a.txt" "H2"] (mkUser 1) []).1
      = [mkRow 0 "a.txt" "H2"] :=
  ⟨by decide,
    apply_creations_appends_snapshots [mkRow 1 "c.txt" "H1"]
      [mkCreate "a.txt" "H2", mkCreate "b.txt" "H3"] (mkUser 1) (by decide)⟩

/-- C16: compacting the output of the compactor changes nothing. -/
theorem compaction_idempotent (x : List FileAction) :
    RemoveRedundancyFromFileActions (RemoveRedundancyFromFileActions x)
      = RemoveRedundancyFromFileActions x :=
  RemoveRedundancyFromFileActions_idem x

/-- C19 (counterexample): on the batch made of one deletion, the materializer
returns the snapshot of that deletion, although the batch holds no creation. -/
theorem materializer_returns_deleted_file :
    ¬ (∀ file ∈ ComputeFilesFromFileActions [mkDelete "a.txt" "H1"],
        ∃ a ∈ [mkDelete "a.txt" "H1"], a.IsCreate = true ∧ a.File = file) := by
  decide

/-- C19 (amended): the files returned by the materializer are exactly the
embedded snapshots of the actions of the input that survive the compactor,
creations and deletions alike. -/
theorem mem_ComputeFilesFromFileActions (fileActions : List FileAction) (file : File) :
    file ∈ ComputeFilesFromFileActions fileActions
      ↔ ∃ a ∈ RemoveRedundancyFromFileActions fileActions, a.File = file := by
  unfold ComputeFilesFromFileActions
  simp only [foldl_append_File, List.nil_append, List.mem_map]

/-- C20 (evaluation at a failing input): whatever `json.Marshal` and
`json.Unmarshal` compute, decoding the encoding of the creation of
("./client.go", "f953") returns the zero FileAction, which is not that
creation: the decoded value never reaches the result. -/
theorem decoder_returns_zero_FileAction (jsonMarshal : FileAction → Except String String)
    (jsonUnmarshal : String → Except String FileAction) (client : Client) :
    (ConvertJsonStringToFileActionsStruct jsonUnmarshal
        (ConvertFileActionStructToJsonString jsonMarshal (mkCreate "./client.go" "f953")).1
        client).1 = default ∧
    (default : FileAction) ≠ mkCreate "./client.go" "f953" := by
  constructor
  · unfold ConvertJsonStringToFileActionsStruct
    split <;> rfl
  · decide

/-! ## The positions kept by the compactor -/

theorem maskStep_eq (m : ActionMap) (out : List Bool) (a : FileAction) :
    maskStep (m, out) a
      = if 0 < tallyAt m (opposingMapKey a) then
          (m.set (opposingMapKey a) (tallyAt m (opposingMapKey a) - 1), out ++ [false])
        else (m, out ++ [true]) := by
  unfold maskStep tallyAt
  cases h : m (opposingMapKey a) with
  | none => simp [h]
  | some v => simp [h]

theorem foldl_maskStep (l : List FileAction) (m : ActionMap) (out : List Bool) :
    (l.foldl maskStep (m, out)).2 = out ++ maskFrom m l := by
  induction l generalizing m out with
  | nil => simp [maskFrom]
  | cons a l ih =>
    rw [List.foldl_cons, maskStep_eq]
    by_cases h : 0 < tallyAt m (opposingMapKey a)
    · rw [if_pos h, ih]
      simp [maskFrom, h]
    · rw [if_neg h, ih]
      simp [maskFrom, h]

theorem keptMask_eq (l : List FileAction) :
    keptMask l = maskFrom (l.foldl tallyStep emptyActionMap) l := by
  simp [keptMask, foldl_maskStep]

/-- The second loop returns the actions at the positions that it marks. -/
theorem cancelFrom_eq_selectKept (l : List FileAction) (m : ActionMap) :
    cancelFrom m l = selectKept l (maskFrom m l) := by
  induction l generalizing m with
  | nil => simp [cancelFrom, maskFrom, selectKept]
  | cons a l ih =>
    unfold cancelFrom maskFrom
    by_cases h : 0 < tallyAt m (opposingMapKey a)
    · rw [if_pos h, if_pos h, ih]
      simp [selectKept]
    · rw [if_neg h, if_neg h, ih]
      simp [selectKept]

theorem RemoveRedundancyFromFileActions_eq_selectKept (l : List FileAction) :
    RemoveRedundancyFromFileActions l = selectKept l (keptMask l) := by
  rw [RemoveRedundancyFromFileActions_eq, keptMask_eq, cancelFrom_eq_selectKept]

theorem cnt_append_singleton (b : Bool) (s : String) (p : List FileAction) (a : FileAction) :
    cnt b s (p ++ [a]) = cnt b s p + (if a.IsCreate = b ∧ pathHash a = s then 1 else 0) := by
  simp [cnt, List.countP_append, List.countP_cons]

/-- The decisions of the second loop in closed form, when on entry every tally
is the initial count `T` less the opposing actions already visited (`p`). -/
theorem maskFrom_closed (T : Bool → String → Nat) (r p : List FileAction) (m : ActionMap)
    (hm : ∀ b s, tallyAt m (isCreateMap b ++ s) = ((T b s - cnt (!b) s p : ℕ) : ℤ)) :
    maskFrom m r = (r.enumFrom p.length).map (fun q =>
      decide (T (!q.2.IsCreate) (pathHash q.2) ≤ cnt q.2.IsCreate (pathHash q.2)
        ((p ++ r).take q.1))) := by
  induction r generalizing p m with
  | nil => simp [maskFrom]
  | cons a r ih =>
    have hkey := hm (!a.IsCreate) (pathHash a)
    rw [← opposingMapKey_eq, Bool.not_not] at hkey
    have hnext : ∀ (m' : ActionMap),
        (∀ k, k ≠ opposingMapKey a → tallyAt m' k = tallyAt m k) →
        tallyAt m' (opposingMapKey a)
          = ((T (!a.IsCreate) (pathHash a) - (cnt a.IsCreate (pathHash a) p + 1) : ℕ) : ℤ) →
        ∀ b s, tallyAt m' (isCreateMap b ++ s)
          = ((T b s - cnt (!b) s (p ++ [a]) : ℕ) : ℤ) := by
      intro m' hother hself b s
      rw [cnt_append_singleton]
      by_cases hk : a.IsCreate = (!b) ∧ pathHash a = s
      · have hb : b = !a.IsCreate := by rw [hk.1]; simp
        rw [if_pos hk, hb, ← hk.2, ← opposingMapKey_eq, hself]
        simp
      · have hne : isCreateMap b ++ s ≠ opposingMapKey a := by
          rw [opposingMapKey_eq, Ne, isCreateMap_append_inj]
          rintro ⟨h1, h2⟩
          apply hk
          refine ⟨?_, h2.symm⟩
          rw [h1]; simp
        rw [if_neg hk, hother _ hne, hm]
        simp
    have htail : ∀ (m' : ActionMap),
        (∀ b s, tallyAt m' (isCreateMap b ++ s)
          = ((T b s - cnt (!b) s (p ++ [a]) : ℕ) : ℤ)) →
        maskFrom m' r = (r.enumFrom (p.length + 1)).map (fun q =>
          decide (T (!q.2.IsCreate) (pathHash q.2) ≤ cnt q.2.IsCreate (pathHash q.2)
            ((p ++ a :: r).take q.1))) := by
      intro m' hm'
      have := ih (p ++ [a]) m' hm'
      simpa using this
    unfold maskFrom
    rw [List.enumFrom_cons, List.map_cons, List.take_left]
    by_cases h : 0 < tallyAt m (opposingMapKey a)
    · rw [if_pos h, htail]
      · have : ¬ (T (!a.IsCreate) (pathHash a) ≤ cnt a.IsCreate (pathHash a) p) := by
          rw [hkey] at h; omega
        simp [this]
      · apply hnext
        · intro k hk
          rw [tallyAt_set, if_neg hk]
        · rw [tallyAt_set, if_pos rfl, hkey]
          rw [hkey] at h
          omega
    · rw [if_neg h, htail]
      · have : T (!a.IsCreate) (pathHash a) ≤ cnt a.IsCreate (pathHash a) p := by
          rw [hkey] at h; omega
        simp [this]
      · apply hnext
        · intro k _
          rfl
        · rw [hkey]
          rw [hkey] at h
          omega

/-- The decisions of the compactor are the closed form at every position. -/
theorem keptMask_eq_survives (l : List FileAction) :
    keptMask l = l.enum.map (fun q => survives l q.1 q.2) := by
  rw [keptMask_eq, maskFrom_closed (fun b s => cnt b s l) l [] _ ?_]
  · simp [survives, List.enum]
  · intro b s
    rw [tallyAt_tally]
    simp [cnt]

theorem selectKept_map_enumFrom (l : List FileAction) (n : Nat) (f : Nat × FileAction → Bool) :
    selectKept l ((l.enumFrom n).map f) = ((l.enumFrom n).filter f).map Prod.snd := by
  induction l generalizing n with
  | nil => simp [selectKept]
  | cons a l ih =>
    have := ih (n + 1)
    unfold selectKept at this ⊢
    by_cases h : f (n, a) = true
    · simp [List.enumFrom_cons, List.filter_cons, h, this]
    · simp [List.enumFrom_cons, List.filter_cons, h, this]

/-- C15: the compactor keeps the action at position `i` exactly when the
actions before position `i` with the same task and the same `Path + Hash`
string are at least as many as the actions of the whole input with the
opposite task and that string; its output is the input filtered, position by
position, by this test. -/
theorem survivor_selection_closed_form (fileActions : List FileAction) :
    keptMask fileActions = fileActions.enum.map (fun q => survives fileActions q.1 q.2) ∧
    RemoveRedundancyFromFileActions fileActions
      = (fileActions.enum.filter (fun q => survives fileActions q.1 q.2)).map Prod.snd := by
  refine ⟨keptMask_eq_survives fileActions, ?_⟩
  rw [RemoveRedundancyFromFileActions_eq_selectKept, keptMask_eq_survives]
  exact selectKept_map_enumFrom fileActions 0 _

/-! ## Inputs that agree on task, path and hash -/

theorem actionKey_eq_of_sameKey (a b : FileAction) (h : sameKey a b) :
    actionKey a = actionKey b := by
  obtain ⟨h1, h2, h3⟩ := h
  simp [actionKey, h1, h2, h3]

theorem opposingMapKey_eq_of_sameKey (a b : FileAction) (h : sameKey a b) :
    opposingMapKey a = opposingMapKey b := by
  obtain ⟨h1, h2, h3⟩ := h
  simp [opposingMapKey, opposingTask, h1, h2, h3]

theorem foldl_tallyStep_of_sameKey (x y : List FileAction) (h : List.Forall₂ sameKey x y)
    (m : ActionMap) : x.foldl tallyStep m = y.foldl tallyStep m := by
  induction h generalizing m with
  | nil => rfl
  | cons hab _ ih =>
    rw [List.foldl_cons, List.foldl_cons, ← ih]
    congr 1
    unfold tallyStep
    rw [actionKey_eq_of_sameKey _ _ hab]

theorem maskFrom_of_sameKey (x y : List FileAction) (h : List.Forall₂ sameKey x y)
    (m : ActionMap) : maskFrom m x = maskFrom m y := by
  induction h generalizing m with
  | nil => rfl
  | cons hab _ ih =>
    unfold maskFrom
    rw [opposingMapKey_eq_of_sameKey _ _ hab, ih, ih]

/-- C18: when two inputs of the same length agree, position by position, on
`IsCreate`, `File.Path` and `File.Hash`, the compactor takes the same decision
at every position of both, and each output is its input restricted to the
positions so kept. -/
theorem survivor_positions_depend_on_key_only (x y : List FileAction)
    (hlen : x.length = y.length)
    (h : ∀ i (hx : i < x.length) (hy : i < y.length),
      sameKey (x.get ⟨i, hx⟩) (y.get ⟨i, hy⟩)) :
    keptMask x = keptMask y ∧
    RemoveRedundancyFromFileActions x = selectKept x (keptMask x) ∧
    RemoveRedundancyFromFileActions y = selectKept y (keptMask y) := by
  have hxy : List.Forall₂ sameKey x y := List.forall₂_iff_get.mpr ⟨hlen, h⟩
  refine ⟨?_, RemoveRedundancyFromFileActions_eq_selectKept x,
    RemoveRedundancyFromFileActions_eq_selectKept y⟩
  rw [keptMask_eq, keptMask_eq, foldl_tallyStep_of_sameKey x y hxy, maskFrom_of_sameKey x y hxy]

theorem survivor_positions_depend_on_key_only_witness :
    [mkCreate "a.txt" "H1", mkCreate "a.txt" "H1", mkDelete "a.txt" "H1"].length
      = [{ mkCreate "a.txt" "H1" with Id := 5 }, { mkCreate "a.txt" "H1" with ClientId := 9 },
          { mkDelete "a.txt" "H1" with CreatedAt := "2015-02-09" }].length ∧
    keptMask [mkCreate "a.txt" "H1", mkCreate "a.txt" "H1", mkDelete "a.txt" "H1"]
      = keptMask [{ mkCreate "a.txt" "H1" with Id := 5 },
          { mkCreate "a.txt" "H1" with ClientId := 9 },
          { mkDelete "a.txt" "H1" with CreatedAt := "2015-02-09" }] ∧
    RemoveRedundancyFromFileActions
        [mkCreate "a.txt" "H1", mkCreate "a.txt" "H1", mkDelete "a.txt" "H1"]
      = selectKept [mkCreate "a.txt" "H1", mkCreate "a.txt" "H1", mkDelete "a.txt" "H1"]
          (keptMask [mkCreate "a.txt" "H1", mkCreate "a.txt" "H1", mkDelete "a.txt" "H1"]) ∧
    RemoveRedundancyFromFileActions
        [{ mkCreate "a.txt" "H1" with Id := 5 }, { mkCreate "a.txt" "H1" with ClientId := 9 },
          { mkDelete "a.txt" "H1" with CreatedAt := "2015-02-09" }]
      = selectKept [{ mkCreate "a.txt" "H1" with Id := 5 },
          { mkCreate "a.txt" "H1" with ClientId := 9 },
          { mkDelete "a.txt" "H1" with CreatedAt := "2015-02-09" }]
          (keptMask [{ mkCreate "a.txt" "H1" with Id := 5 },
            { mkCreate "a.txt" "H1" with ClientId := 9 },
            { mkDelete "a.txt" "H1" with CreatedAt := "2015-02-09" }]) :=
  ⟨rfl,
    survivor_positions_depend_on_key_only
      [mkCreate "a.txt" "H1", mkCreate "a.txt" "H1", mkDelete "a.txt" "H1"]
      [{ mkCreate "a.txt" "H1" with Id := 5 }, { mkCreate "a.txt" "H1" with ClientId := 9 },
        { mkDelete "a.txt" "H1" with CreatedAt := "2015-02-09" }]
      rfl
      (fun i hx hy =>
        match i, hx, hy with
        | 0, _, _ => ⟨rfl, rfl, rfl⟩
        | 1, _, _ => ⟨rfl, rfl, rfl⟩
        | 2, _, _ => ⟨rfl, rfl, rfl⟩)⟩

/-! ## Inputs on which the key string determines path and hash -/

theorem append_inj_of_utf8ByteSize (p h p' h' : String) (e : p ++ h = p' ++ h')
    (hs : h.utf8ByteSize = h'.utf8ByteSize) : p = p' ∧ h = h' := by
  have hd : p.data ++ h.data = p'.data ++ h'.data := by
    have := congrArg String.data e
    simpa [String.data_append] using this
  have hs' : String.utf8Len h.data = String.utf8Len h'.data := hs
  rcases List.append_eq_append_iff.mp hd with ⟨c, hp, hh⟩ | ⟨c, hp, hh⟩
  · rw [hh, String.utf8Len_append] at hs'
    have hc : c = [] := String.utf8Len_eq_zero.mp (by omega)
    subst hc
    simp at hp hh
    exact ⟨String.ext hp.symm, String.ext hh⟩
  · rw [hh, String.utf8Len_append] at hs'
    have hc : c = [] := String.utf8Len_eq_zero.mp (by omega)
    subst hc
    simp at hp hh
    exact ⟨String.ext hp, String.ext hh.symm⟩

theorem append_inj_of_length (p h p' h' : String) (e : p ++ h = p' ++ h')
    (hs : h.length = h'.length) : p = p' ∧ h = h' := by
  have hd : p.data ++ h.data = p'.data ++ h'.data := by
    have := congrArg String.data e
    simpa [String.data_append] using this
  have := List.append_inj' hd hs
  exact ⟨String.ext this.1, String.ext this.2⟩

/-- On an input whose key strings determine path and hash, the survivors of a
bucket `(path, hash)` are counted by truncated subtraction. -/
theorem countActions_RemoveRedundancyFromFileActions (l : List FileAction)
    (hf : ∀ a ∈ l, ∀ a' ∈ l, pathHash a = pathHash a' →
      a.File.Path = a'.File.Path ∧ a.File.Hash = a'.File.Hash)
    (b : Bool) (path hash : String) :
    countActions b path hash (RemoveRedundancyFromFileActions l)
      = countActions b path hash l - countActions (!b) path hash l := by
  have hsub : ∀ a ∈ RemoveRedundancyFromFileActions l, a ∈ l := by
    intro a ha
    rw [RemoveRedundancyFromFileActions_eq] at ha
    exact (cancelFrom_sublist l _).subset ha
  by_cases hex : ∃ a₀ ∈ l, a₀.File.Path = path ∧ a₀.File.Hash = hash
  · obtain ⟨a₀, ha₀, hp₀, hh₀⟩ := hex
    have key : ∀ (b' : Bool) (l' : List FileAction), (∀ a ∈ l', a ∈ l) →
        countActions b' path hash l' = cnt b' (path ++ hash) l' := by
      intro b' l' hl'
      unfold countActions cnt
      apply List.countP_congr
      intro a ha
      simp only [decide_eq_true_eq]
      constructor
      · rintro ⟨h1, h2, h3⟩
        exact ⟨h1, by simp [pathHash, h2, h3]⟩
      · rintro ⟨h1, h2⟩
        have := hf a (hl' a ha) a₀ ha₀ (by rw [h2]; simp [pathHash, hp₀, hh₀])
        exact ⟨h1, this.1.trans hp₀, this.2.trans hh₀⟩
    rw [key b _ hsub, key b l (fun _ h => h), key (!b) l (fun _ h => h),
      cnt_RemoveRedundancyFromFileActions]
  · have zero : ∀ (b' : Bool) (l' : List FileAction), (∀ a ∈ l', a ∈ l) →
        countActions b' path hash l' = 0 := by
      intro b' l' hl'
      unfold countActions
      rw [List.countP_eq_zero]
      intro a ha
      simp only [decide_eq_true_eq]
      rintro ⟨_, h2, h3⟩
      exact hex ⟨a, hl' a ha, h2, h3⟩
    rw [zero b _ hsub, zero b l (fun _ h => h)]
    simp

/-- C17: when all hashes of the input have the same length (counted in bytes,
as Go's `len` does, or in characters), the output holds, for every path and
hash, `c - d` creations and `d - c` deletions of that path and hash, the
subtractions being truncated at zero and `c`, `d` being the numbers of
creations and of deletions of that path and hash in the input. -/
theorem fixed_length_hashes_faithful_buckets (fileActions : List FileAction) (n : Nat)
    (h : (∀ a ∈ fileActions, a.File.Hash.utf8ByteSize = n) ∨
         (∀ a ∈ fileActions, a.File.Hash.length = n))
    (path hash : String) :
    countActions true path hash (RemoveRedundancyFromFileActions fileActions)
      = countActions true path hash fileActions - countActions false path hash fileActions ∧
    countActions false path hash (RemoveRedundancyFromFileActions fileActions)
      = countActions false path hash fileActions - countActions true path hash fileActions := by
  have hf : ∀ a ∈ fileActions, ∀ a' ∈ fileActions, pathHash a = pathHash a' →
      a.File.Path = a'.File.Path ∧ a.File.Hash = a'.File.Hash := by
    intro a ha a' ha' e
    rcases h with h | h
    · exact append_inj_of_utf8ByteSize _ _ _ _ e ((h a ha).trans (h a' ha').symm)
    · exact append_inj_of_length _ _ _ _ e ((h a ha).trans (h a' ha').symm)
  exact ⟨countActions_RemoveRedundancyFromFileActions fileActions hf true path hash,
    countActions_RemoveRedundancyFromFileActions fileActions hf false path hash⟩

theorem fixed_length_hashes_faithful_buckets_witness :
    ((∀ a ∈ [mkCreate "a" "bc", mkCreate "ab" "cd", mkCreate "a" "bc", mkDelete "a" "bc"],
        a.File.Hash.utf8ByteSize = 2) ∨
      (∀ a ∈ [mkCreate "a" "bc", mkCreate "ab" "cd", mkCreate "a" "bc", mkDelete "a" "bc"],
        a.File.Hash.length = 2)) ∧
    countActions true "a" "bc" (RemoveRedundancyFromFileActions
        [mkCreate "a" "bc", mkCreate "ab" "cd", mkCreate "a" "bc", mkDelete "a" "bc"])
      = countActions true "a" "bc"
          [mkCreate "a" "bc", mkCreate "ab" "cd", mkCreate "a" "bc", mkDelete "a" "bc"]
        - countActions false "a" "bc"
          [mkCreate "a" "bc", mkCreate "ab" "cd", mkCreate "a" "bc", mkDelete "a" "bc"] ∧
    countActions false "a" "bc" (RemoveRedundancyFromFileActions
        [mkCreate "a" "bc", mkCreate "ab" "cd", mkCreate "a" "bc", mkDelete "a" "bc"])
      = countActions false "a" "bc"
          [mkCreate "a" "bc", mkCreate "ab" "cd", mkCreate "a" "bc", mkDelete "a" "bc"]
        - countActions true "a" "bc"
          [mkCreate "a" "bc", mkCreate "ab" "cd", mkCreate "a" "bc", mkDelete "a" "bc"] :=
  ⟨Or.inl (by decide),
    fixed_length_hashes_faithful_buckets
      [mkCreate "a" "bc", mkCreate "ab" "cd", mkCreate "a" "bc", mkDelete "a" "bc"] 2
      (Or.inl (by decide)) "a" "bc"⟩

end boxtools
